import Mathlib

/-!
Verification development for the `paddleocr_finance` repository.

The development shallowly embeds the pure logic of the four Python source
files:

* `split_pdf.py`   — `split_pdf`: split a PDF into single-page files;
* `combine_pdf.py` — `collect_pdfs` (dedupe + natural sort) and `merge_pdfs`;
* `combine_ocr_json.py` — `extract_page_number`, `combine_ocr_json_files`,
  `create_summary_report`.

PDF documents are modelled as lists of opaque page values (`PDFDoc α`);
filesystem effects are modelled as explicit traces of `FsOp` events; paths
are modelled as directory/stem/extension triples; fallible operations
return `Except`.  Python's `sorted` (a stable comparison sort keyed by a
"less-than" test) is modelled by a stable insertion sort, which computes
the same function as any stable sort by the given strict order.
-/

/-! ### Decimal digit strings

`natDigits n` models the decimal rendering of a non-negative integer as
produced by Python string formatting (f-strings).  It is defined with a
structural fuel argument so that it evaluates inside the kernel. -/

def digitChar (n : Nat) : Char := Char.ofNat (48 + n)

def natDigitsGo : Nat → Nat → List Char
  | n, 0 => [digitChar (n % 10)]
  | n, fuel + 1 =>
    if n < 10 then [digitChar n]
    else natDigitsGo (n / 10) fuel ++ [digitChar (n % 10)]

def natDigits (n : Nat) : List Char := natDigitsGo n n

def natDigitsStr (n : Nat) : String := ⟨natDigits n⟩

/-- The value of a digit string, as computed by Python's `int`. -/
def digitsToNat (cs : List Char) : Nat :=
  cs.foldl (fun a c => 10 * a + (c.toNat - 48)) 0

theorem digitChar_isDigit : ∀ d, d < 10 → (digitChar d).isDigit = true := by decide

theorem digitChar_toNat : ∀ d, d < 10 → (digitChar d).toNat = 48 + d := by decide

theorem digitsToNat_go (cs : List Char) (a : Nat) :
    cs.foldl (fun a c => 10 * a + (c.toNat - 48)) a =
      a * 10 ^ cs.length + digitsToNat cs := by
  induction cs generalizing a with
  | nil => simp [digitsToNat]
  | cons c cs ih =>
    simp only [List.foldl_cons, digitsToNat, List.length_cons]
    rw [ih (10 * a + (c.toNat - 48)), ih (10 * 0 + (c.toNat - 48))]
    ring

theorem digitsToNat_append (xs ys : List Char) :
    digitsToNat (xs ++ ys) = digitsToNat xs * 10 ^ ys.length + digitsToNat ys := by
  simp only [digitsToNat, List.foldl_append]
  rw [digitsToNat_go]
  rfl

theorem natDigitsGo_spec (fuel : Nat) : ∀ n, n ≤ fuel →
    natDigitsGo n fuel ≠ [] ∧ (∀ c ∈ natDigitsGo n fuel, c.isDigit = true) ∧
      digitsToNat (natDigitsGo n fuel) = n := by
  induction fuel with
  | zero =>
    intro n hn
    interval_cases n
    refine ⟨by simp [natDigitsGo], ?_, by simp [natDigitsGo, digitsToNat, digitChar]⟩
    intro c hc
    simp only [natDigitsGo] at hc
    simp only [List.mem_singleton] at hc
    subst hc
    exact digitChar_isDigit 0 (by omega)
  | succ fuel ih =>
    intro n hn
    by_cases h10 : n < 10
    · refine ⟨by simp [natDigitsGo, h10], ?_, ?_⟩
      · intro c hc
        simp only [natDigitsGo, if_pos h10, List.mem_singleton] at hc
        subst hc; exact digitChar_isDigit n h10
      · simp only [natDigitsGo, if_pos h10, digitsToNat, List.foldl_cons, List.foldl_nil]
        rw [digitChar_toNat n h10]; omega
    · have hdiv_le : n / 10 ≤ fuel := by
        have h1 : n / 10 < n := Nat.div_lt_self (by omega) (by omega)
        omega
      obtain ⟨hne, hdig, hval⟩ := ih (n / 10) hdiv_le
      have hmod : n % 10 < 10 := Nat.mod_lt _ (by omega)
      refine ⟨by simp [natDigitsGo, h10], ?_, ?_⟩
      · intro c hc
        simp only [natDigitsGo, if_neg h10, List.mem_append, List.mem_singleton] at hc
        rcases hc with hc | hc
        · exact hdig c hc
        · subst hc; exact digitChar_isDigit _ hmod
      · simp only [natDigitsGo, if_neg h10]
        rw [digitsToNat_append, hval]
        simp only [List.length_singleton, pow_one, digitsToNat, List.foldl_cons,
          List.foldl_nil]
        rw [digitChar_toNat _ hmod]
        omega

theorem natDigits_ne_nil (n : Nat) : natDigits n ≠ [] :=
  (natDigitsGo_spec n n le_rfl).1

theorem natDigits_all_digit (n : Nat) : ∀ c ∈ natDigits n, c.isDigit = true :=
  (natDigitsGo_spec n n le_rfl).2.1

theorem digitsToNat_natDigits (n : Nat) : digitsToNat (natDigits n) = n :=
  (natDigitsGo_spec n n le_rfl).2.2

/-! ### Splitting a string into digit / non-digit runs

`splitDigitRuns` models Python's `re.split(r"(\d+)", s)`: the result is an
alternating list of (possibly empty) non-digit chunks and (non-empty)
digit chunks, beginning and ending with a non-digit chunk. -/

def consRun (c : Char) : List (List Char) → List (List Char)
  | [] => [[c]]
  | t :: rest =>
    if c.isDigit then
      match t, rest with
      | [], d :: rest2 => [] :: (c :: d) :: rest2
      | _, _ => [] :: [c] :: t :: rest
    else (c :: t) :: rest

def splitDigitRuns : List Char → List (List Char)
  | [] => [[]]
  | c :: cs => consRun c (splitDigitRuns cs)

theorem splitDigitRuns_ne_nil (cs : List Char) : splitDigitRuns cs ≠ [] := by
  cases cs with
  | nil => simp [splitDigitRuns]
  | cons c cs =>
    simp only [splitDigitRuns]
    cases h : splitDigitRuns cs with
    | nil => simp [consRun]
    | cons t rest =>
      simp only [consRun]
      by_cases hd : c.isDigit
      · simp only [if_pos hd]
        match t, rest with
        | [], d :: rest2 => simp
        | [], [] => simp
        | t0 :: ts, rest => simp
      · simp [if_neg hd]

theorem splitDigitRuns_ne_single_nil (cs : List Char) (h : cs ≠ []) :
    splitDigitRuns cs ≠ [[]] := by
  cases cs with
  | nil => exact absurd rfl h
  | cons c cs =>
    simp only [splitDigitRuns]
    cases hr : splitDigitRuns cs with
    | nil => exact absurd hr (splitDigitRuns_ne_nil cs)
    | cons t rest =>
      simp only [consRun]
      by_cases hd : c.isDigit
      · simp only [if_pos hd]
        match t, rest with
        | [], d :: rest2 => simp
        | [], [] => simp
        | t0 :: ts, rest => simp
      · simp [if_neg hd]

theorem consRun_append (c : Char) (xs ys : List (List Char))
    (h1 : xs ≠ []) (h2 : xs ≠ [[]]) :
    consRun c (xs ++ ys) = consRun c xs ++ ys := by
  cases xs with
  | nil => exact absurd rfl h1
  | cons t rest =>
    simp only [List.cons_append, consRun]
    by_cases hd : c.isDigit
    · simp only [if_pos hd]
      match t, rest with
      | [], d :: rest2 => simp
      | [], [] => exact absurd rfl h2
      | t0 :: ts, [] => simp
      | t0 :: ts, d :: rest2 => simp
    · simp [if_neg hd]

/-- The run decomposition of a non-empty all-digit string is a single
digit chunk flanked by empty non-digit chunks. -/
theorem splitDigitRuns_all_digits (ds : List Char) (hne : ds ≠ [])
    (hds : ∀ d ∈ ds, d.isDigit = true) : splitDigitRuns ds = [[], ds, []] := by
  induction ds with
  | nil => exact absurd rfl hne
  | cons d ds ih =>
    cases ds with
    | nil =>
      have h1 : splitDigitRuns [d] = consRun d [[]] := rfl
      rw [h1]
      simp [consRun, hds d (by simp)]
    | cons d2 ds2 =>
      have h1 : splitDigitRuns (d :: d2 :: ds2) = consRun d (splitDigitRuns (d2 :: ds2)) := rfl
      rw [h1, ih (by simp) (fun x hx => hds x (List.mem_cons_of_mem d hx))]
      simp [consRun, hds d (by simp)]

/-- Appending a non-empty all-digit run after a string that ends in a
non-digit character appends exactly one digit chunk (and a trailing empty
non-digit chunk) to the run decomposition. -/
theorem splitDigitRuns_append_digits (q : List Char) (c : Char) (ds : List Char)
    (hc : c.isDigit = false) (hne : ds ≠ []) (hds : ∀ d ∈ ds, d.isDigit = true) :
    splitDigitRuns (q ++ [c] ++ ds) = splitDigitRuns (q ++ [c]) ++ [ds, []] := by
  induction q with
  | nil =>
    have h1 : splitDigitRuns ([] ++ [c] ++ ds) = consRun c (splitDigitRuns ds) := rfl
    have h2 : splitDigitRuns ([] ++ [c]) = consRun c [[]] := rfl
    rw [h1, h2, splitDigitRuns_all_digits ds hne hds]
    cases ds with
    | nil => exact absurd rfl hne
    | cons d0 ds0 => simp [consRun, hc]
  | cons a q ih =>
    have h1 : splitDigitRuns ((a :: q) ++ [c] ++ ds) =
        consRun a (splitDigitRuns (q ++ [c] ++ ds)) := rfl
    have h2 : splitDigitRuns ((a :: q) ++ [c]) =
        consRun a (splitDigitRuns (q ++ [c])) := rfl
    rw [h1, h2, ih]
    exact consRun_append a _ _ (splitDigitRuns_ne_nil _)
      (splitDigitRuns_ne_single_nil _ (by simp))

/-! ### The natural sort key (`_natural_key` in `combine_pdf.py`)

`re.split(r"(\d+)", path.stem)` followed by
`int(part) if part.isdigit() else part.lower()`. -/

inductive KeyPart where
  | num (n : Nat)
  | text (cs : List Char)
deriving DecidableEq, Repr

/-- Python's `str.isdigit`: non-empty and all digits (ASCII model). -/
def pyIsDigit (run : List Char) : Bool :=
  !run.isEmpty && run.all Char.isDigit

def partOf (run : List Char) : KeyPart :=
  if pyIsDigit run then .num (digitsToNat run) else .text (run.map Char.toLower)

/-- The natural sort key of a filename stem, as computed by
`_natural_key` in `combine_pdf.py`. -/
def natKey (stem : String) : List KeyPart :=
  (splitDigitRuns stem.data).map partOf

/-- Lexicographic less-than on lists of characters (Python string `<`). -/
def charsLt : List Char → List Char → Bool
  | [], [] => false
  | [], _ :: _ => true
  | _ :: _, [] => false
  | c :: cs, d :: ds => decide (c < d) || (c == d && charsLt cs ds)

/-- Less-than on key parts.  Python compares an `int` part with a `str`
part by raising `TypeError`; that situation never arises between two keys
of the same alternating shape (as produced for a common stem pattern), and
the model resolves it arbitrarily (numbers before text). -/
def partLt : KeyPart → KeyPart → Bool
  | .num a, .num b => decide (a < b)
  | .text a, .text b => charsLt a b
  | .num _, .text _ => true
  | .text _, .num _ => false

/-- Lexicographic less-than on whole keys (Python list `<`). -/
def keyLt : List KeyPart → List KeyPart → Bool
  | [], [] => false
  | [], _ :: _ => true
  | _ :: _, [] => false
  | a :: as, b :: bs => partLt a b || (decide (a = b) && keyLt as bs)

theorem charsLt_irrefl (cs : List Char) : charsLt cs cs = false := by
  induction cs with
  | nil => rfl
  | cons c cs ih => simp [charsLt, ih]

theorem partLt_irrefl (p : KeyPart) : partLt p p = false := by
  cases p with
  | num n => simp [partLt]
  | text cs => simp [partLt, charsLt_irrefl]

theorem keyLt_append_left (K xs ys : List KeyPart) :
    keyLt (K ++ xs) (K ++ ys) = keyLt xs ys := by
  induction K with
  | nil => rfl
  | cons a K ih => simp [keyLt, partLt_irrefl, ih]

/-! ### Python's `sorted` / `list.sort`

A stable comparison sort driven by a boolean strict order `lt`; modelled
by stable insertion sort, which agrees with every stable sort by `lt`. -/

def pyInsert (lt : α → α → Bool) (x : α) : List α → List α
  | [] => [x]
  | y :: ys => if lt y x then y :: pyInsert lt x ys else x :: y :: ys

def pySorted (lt : α → α → Bool) : List α → List α
  | [] => []
  | x :: xs => pyInsert lt x (pySorted lt xs)

theorem pyInsert_perm (lt : α → α → Bool) (x : α) (l : List α) :
    List.Perm (pyInsert lt x l) (x :: l) := by
  induction l with
  | nil => rfl
  | cons y ys ih =>
    simp only [pyInsert]
    by_cases h : lt y x
    · rw [if_pos h]
      exact ((ih.cons y).trans (List.Perm.swap x y ys))
    · rw [if_neg h]

theorem pySorted_perm (lt : α → α → Bool) (l : List α) :
    List.Perm (pySorted lt l) l := by
  induction l with
  | nil => rfl
  | cons x xs ih =>
    simp only [pySorted]
    exact (pyInsert_perm lt x (pySorted lt xs)).trans (ih.cons x)

theorem pySorted_length (lt : α → α → Bool) (l : List α) :
    (pySorted lt l).length = l.length :=
  (pySorted_perm lt l).length_eq

theorem pySorted_mem (lt : α → α → Bool) (x : α) (l : List α) :
    x ∈ pySorted lt l ↔ x ∈ l :=
  (pySorted_perm lt l).mem_iff

/-- A list that is already strictly ordered (no later element is `lt` an
earlier one) is left unchanged by the sort. -/
theorem pySorted_eq_self (lt : α → α → Bool) (l : List α)
    (h : l.Pairwise (fun a b => lt b a = false)) : pySorted lt l = l := by
  induction l with
  | nil => rfl
  | cons x xs ih =>
    simp only [pySorted]
    rw [ih h.of_cons]
    cases xs with
    | nil => rfl
    | cons y ys =>
      simp only [pyInsert]
      rw [if_neg (by simp [List.pairwise_cons.mp h |>.1 y (by simp)])]

/-! ### Paths and filesystem effects

A path is modelled as a directory part, a stem and an extension (as in
`pathlib`: `Path.stem` and `Path.suffix`).  Filesystem mutations are
recorded as an explicit event trace. -/

structure FPath where
  dir : String
  stem : String
  ext : String
deriving DecidableEq, Repr

inductive FsOp (α : Type) where
  | mkdirAll (dir : String)
  | save (path : FPath) (doc : List α)
  | rename (src dst : FPath)
deriving DecidableEq, Repr

/-- A PDF document: the list of its pages, with opaque page content. -/
abbrev PDFDoc (α : Type) := List α

/-! ### `split_pdf.py` : `split_pdf` -/

inductive SplitError where
  | notFound
  | invalidFormat
  | emptyDocument
deriving DecidableEq, Repr

/-- The single-page output file for (1-based) page number `n`:
`output_dir / f"{source_path.stem}_page_{page_number + 1}.pdf"`. -/
def pageFile (outputDir stem : String) (n : Nat) : FPath :=
  ⟨outputDir, stem ++ "_page_" ++ natDigitsStr n, ".pdf"⟩

/-- The page loop of `split_pdf`: for each page (0-based index `i`) build a
fresh one-page document, save it as `<stem>_page_<i+1>.pdf`, and record the
output path. -/
def splitLoop (outputDir stem : String) : Nat → List α → List (FsOp α) × List FPath
  | _, [] => ([], [])
  | i, p :: ps =>
    let f := pageFile outputDir stem (i + 1)
    let (ops, fs) := splitLoop outputDir stem (i + 1) ps
    (FsOp.save f [p] :: ops, f :: fs)

/-- Python's `str.lower()` (ASCII model), applied characterwise; defined
over the character list so that it evaluates inside the kernel. -/
def strLower (s : String) : String := ⟨s.data.map Char.toLower⟩

/-- `split_pdf(source_path, output_dir)`.  `srcExists` models
`source_path.exists()`; `doc` is the page list of the source document.
The returned trace holds every filesystem mutation in order. -/
def split_pdf (src : FPath) (srcExists : Bool) (doc : PDFDoc α) (outputDir : String) :
    List (FsOp α) × Except SplitError (List FPath) :=
  if !srcExists then ([], .error .notFound)
  else if strLower src.ext ≠ ".pdf" then ([], .error .invalidFormat)
  else if doc.length = 0 then ([], .error .emptyDocument)
  else
    (FsOp.mkdirAll outputDir :: (splitLoop outputDir src.stem 0 doc).1,
     .ok (splitLoop outputDir src.stem 0 doc).2)

/-! ### `combine_pdf.py` : `merge_pdfs` -/

inductive MergeError where
  | emptyInput
  | outputExists
deriving DecidableEq, Repr

/-- The merge loop: start from an empty document and append the full page
sequence of each input in list order (`insert_pdf`). -/
def mergeAll (inputs : List (FPath × PDFDoc α)) : PDFDoc α :=
  inputs.foldl (fun acc pr => acc ++ pr.2) []

/-- `merge_pdfs(input_paths, output_path, overwrite)`.  `outExists` models
`output_path.exists()`; each input carries its page list.  The trace holds
every filesystem mutation in order. -/
def merge_pdfs (inputs : List (FPath × PDFDoc α)) (outputPath : FPath)
    (outExists overwrite : Bool) :
    List (FsOp α) × Except MergeError (PDFDoc α) :=
  if inputs.isEmpty then ([], .error .emptyInput)
  else if outExists && !overwrite then ([], .error .outputExists)
  else
    let merged := mergeAll inputs
    ([FsOp.save outputPath merged], .ok merged)

/-- `sorted(files, key=_natural_key)` over paths, keyed on the stem. -/
def naturalSortFiles (files : List FPath) : List FPath :=
  pySorted (fun a b => keyLt (natKey a.stem) (natKey b.stem)) files

/-- The same natural sort applied to (path, document) pairs, keyed on the
path's stem; used to express "merging the split files in natural order". -/
def naturalSortPairs (inputs : List (FPath × PDFDoc α)) : List (FPath × PDFDoc α) :=
  pySorted (fun a b => keyLt (natKey a.1.stem) (natKey b.1.stem)) inputs

/-! ### Natural keys of generated page filenames -/

theorem natKey_page_stem (stem : String) (n : Nat) :
    natKey (stem ++ "_page_" ++ natDigitsStr n) =
      natKey (stem ++ "_page_") ++ [.num n, .text []] := by
  have hdata : (stem ++ "_page_" ++ natDigitsStr n).data =
      (stem.data ++ "_page".data) ++ ['_'] ++ natDigits n := by
    simp [String.data_append, natDigitsStr]
  have hdata2 : (stem ++ "_page_").data = (stem.data ++ "_page".data) ++ ['_'] := by
    simp [String.data_append]
  unfold natKey
  rw [hdata, hdata2,
    splitDigitRuns_append_digits _ '_' (natDigits n) (by decide)
      (natDigits_ne_nil n) (natDigits_all_digit n)]
  rw [List.map_append]
  congr 1
  have hpod : partOf (natDigits n) = .num n := by
    have h1 : pyIsDigit (natDigits n) = true := by
      have h2 : (natDigits n).all Char.isDigit = true :=
        List.all_eq_true.mpr (natDigits_all_digit n)
      cases h : natDigits n with
      | nil => exact absurd h (natDigits_ne_nil n)
      | cons a l =>
        rw [h] at h2
        simp [pyIsDigit, h2]
    unfold partOf
    rw [if_pos h1, digitsToNat_natDigits]
  simp only [List.map_cons, List.map_nil, hpod]
  simp [partOf, pyIsDigit]

theorem keyLt_page_lt (stem : String) (m n : Nat) (h : m < n) :
    keyLt (natKey (stem ++ "_page_" ++ natDigitsStr m))
      (natKey (stem ++ "_page_" ++ natDigitsStr n)) = true := by
  rw [natKey_page_stem, natKey_page_stem, keyLt_append_left]
  simp [keyLt, partLt, h]

theorem keyLt_page_ge (stem : String) (m n : Nat) (h : m < n) :
    keyLt (natKey (stem ++ "_page_" ++ natDigitsStr n))
      (natKey (stem ++ "_page_" ++ natDigitsStr m)) = false := by
  rw [natKey_page_stem, natKey_page_stem, keyLt_append_left]
  have hne : n ≠ m := Nat.ne_of_gt h
  have hlt : ¬ n < m := by omega
  simp [keyLt, partLt, hlt, hne]

/-! ### Structure of `split_pdf`'s output -/

theorem splitLoop_snd {α : Type} (outDir stem : String) (doc : List α) :
    ∀ i : Nat, (splitLoop outDir stem i doc).2 =
      (List.range' (i + 1) doc.length).map (pageFile outDir stem) := by
  induction doc with
  | nil => intro i; rfl
  | cons p ps ih =>
    intro i
    have h1 : (splitLoop outDir stem i (p :: ps)).2 =
        pageFile outDir stem (i + 1) :: (splitLoop outDir stem (i + 1) ps).2 := rfl
    rw [h1, ih (i + 1)]
    rfl

theorem splitLoop_fst {α : Type} (outDir stem : String) (doc : List α) :
    ∀ i : Nat, (splitLoop outDir stem i doc).1 =
      (List.enumFrom i doc).map
        (fun ip => FsOp.save (pageFile outDir stem (ip.1 + 1)) [ip.2]) := by
  induction doc with
  | nil => intro i; rfl
  | cons p ps ih =>
    intro i
    have h1 : (splitLoop outDir stem i (p :: ps)).1 =
        FsOp.save (pageFile outDir stem (i + 1)) [p] :: (splitLoop outDir stem (i + 1) ps).1 := rfl
    rw [h1, ih (i + 1)]
    rfl

theorem isEmpty_false_of_ne_nil {β : Type} {l : List β} (h : l ≠ []) : l.isEmpty = false := by
  cases l with
  | nil => exact absurd rfl h
  | cons a l => rfl

/-! ### Natural order of the generated page files -/

theorem pageNames_pairwise (outDir stem : String) (N : Nat) :
    ((List.range' 1 N).map (pageFile outDir stem)).Pairwise
      (fun a b => keyLt (natKey b.stem) (natKey a.stem) = false) := by
  rw [List.pairwise_map]
  exact (List.pairwise_lt_range' 1 N).imp (fun hmn => keyLt_page_ge stem _ _ hmn)

theorem pairwise_zip_left {β γ : Type} {R : β → β → Prop} (l1 : List β) (l2 : List γ)
    (h : l1.Pairwise R) : (l1.zip l2).Pairwise (fun x y => R x.1 y.1) := by
  induction l1 generalizing l2 with
  | nil => simp
  | cons a l1 ih =>
    cases l2 with
    | nil => simp
    | cons b l2 =>
      rw [List.zip_cons_cons, List.pairwise_cons]
      refine ⟨?_, ih l2 h.of_cons⟩
      intro x hx
      exact (List.pairwise_cons.mp h).1 x.1 (List.of_mem_zip hx).1

/-- The split output files, paired with their one-page contents, are
already in natural order: the sort leaves them unchanged. -/
theorem naturalSortPairs_pageNames {α : Type} (outDir stem : String) (doc : List α) :
    naturalSortPairs (((List.range' 1 doc.length).map (pageFile outDir stem)).zip
        (doc.map fun p => [p])) =
      ((List.range' 1 doc.length).map (pageFile outDir stem)).zip (doc.map fun p => [p]) :=
  pySorted_eq_self _ _ (pairwise_zip_left _ _ (pageNames_pairwise outDir stem doc.length))

def flattenSnd {α : Type} : List (FPath × PDFDoc α) → PDFDoc α
  | [] => []
  | pr :: rest => pr.2 ++ flattenSnd rest

theorem mergeAll_go {α : Type} (inputs : List (FPath × PDFDoc α)) :
    ∀ acc : PDFDoc α, inputs.foldl (fun a pr => a ++ pr.2) acc = acc ++ flattenSnd inputs := by
  induction inputs with
  | nil => intro acc; simp [flattenSnd]
  | cons pr rest ih =>
    intro acc
    simp only [List.foldl_cons, flattenSnd, ih (acc ++ pr.2), List.append_assoc]

theorem mergeAll_eq {α : Type} (inputs : List (FPath × PDFDoc α)) :
    mergeAll inputs = flattenSnd inputs := by
  unfold mergeAll
  rw [mergeAll_go]
  rfl

theorem flattenSnd_zip_singletons {α : Type} (doc : List α) :
    ∀ fs : List FPath, fs.length = doc.length →
      flattenSnd (fs.zip (doc.map fun p => [p])) = doc := by
  induction doc with
  | nil => intro fs h; rw [List.length_nil] at h; rw [List.eq_nil_of_length_eq_zero h]; rfl
  | cons p ps ih =>
    intro fs h
    cases fs with
    | nil => simp at h
    | cons f fs' =>
      have hlen : fs'.length = ps.length := by simpa using h
      have h2 : ((f :: fs').zip ((p :: ps).map fun q => [q])) =
          (f, [p]) :: fs'.zip (ps.map fun q => [q]) := rfl
      rw [h2]
      show [p] ++ flattenSnd (fs'.zip (ps.map fun q => [q])) = p :: ps
      rw [ih fs' hlen]
      rfl

/-- C1: splitting an `N ≥ 1`-page document produces exactly `N` single-page
files named `<stem>_page_<n>.pdf` for `n = 1..N`, returned in page order and
each holding exactly the corresponding source page; merging those `N` files
in natural order succeeds and reproduces a document with the same page count
and the same per-page content as the original. -/
theorem split_merge_roundtrip {α : Type} (srcDir outDir stem : String) (doc : PDFDoc α)
    (out : FPath) (h : 1 ≤ doc.length) :
    split_pdf ⟨srcDir, stem, ".pdf"⟩ true doc outDir =
      (FsOp.mkdirAll outDir ::
        ((List.enumFrom 0 doc).map fun ip => FsOp.save (pageFile outDir stem (ip.1 + 1)) [ip.2]),
       .ok ((List.range' 1 doc.length).map (pageFile outDir stem))) ∧
    ((List.range' 1 doc.length).map (pageFile outDir stem)).length = doc.length ∧
    merge_pdfs
        (naturalSortPairs (((List.range' 1 doc.length).map (pageFile outDir stem)).zip
          (doc.map fun p => [p]))) out false false
      = ([FsOp.save out doc], .ok doc) := by
  have hlenN : ((List.range' 1 doc.length).map (pageFile outDir stem)).length = doc.length := by
    rw [List.length_map, List.length_range']
  refine ⟨?_, hlenN, ?_⟩
  · unfold split_pdf
    rw [if_neg (by decide), if_neg (fun hne => hne rfl), if_neg (by omega)]
    rw [splitLoop_fst outDir stem doc 0, splitLoop_snd outDir stem doc 0]
  · rw [naturalSortPairs_pageNames]
    have hzlen : (((List.range' 1 doc.length).map (pageFile outDir stem)).zip
        (doc.map fun p => [p])).length = doc.length := by
      rw [List.length_zip, hlenN, List.length_map, Nat.min_self]
    have hzne : (((List.range' 1 doc.length).map (pageFile outDir stem)).zip
        (doc.map fun p => [p])) ≠ [] := by
      intro he
      rw [he] at hzlen
      simp at hzlen
      omega
    unfold merge_pdfs
    rw [if_neg (by rw [isEmpty_false_of_ne_nil hzne]; decide), if_neg (by decide)]
    rw [mergeAll_eq, flattenSnd_zip_singletons doc _ hlenN]

/-- Witness for C1 at a concrete three-page document. -/
theorem split_merge_roundtrip_witness :
    1 ≤ ([10, 20, 30] : PDFDoc Nat).length ∧
      merge_pdfs
          (naturalSortPairs (((List.range' 1 ([10, 20, 30] : PDFDoc Nat).length).map
            (pageFile "out" "doc")).zip (([10, 20, 30] : PDFDoc Nat).map fun p => [p])))
          ⟨"", "merged", ".pdf"⟩ false false
        = ([FsOp.save ⟨"", "merged", ".pdf"⟩ [10, 20, 30]], .ok [10, 20, 30]) :=
  ⟨by decide,
    (split_merge_roundtrip "in" "out" "doc" [10, 20, 30] ⟨"", "merged", ".pdf"⟩ (by decide)).2.2⟩

/-- C2: the natural-ordering key makes embedded digit runs compare as
integers: the list `["a_page_9.pdf", "a_page_10.pdf", "a_page_2.pdf"]`
sorts to `["a_page_2.pdf", "a_page_9.pdf", "a_page_10.pdf"]`, and in
general `<stem>_page_<m>` sorts strictly before `<stem>_page_<n>` whenever
`m < n`. -/
theorem natural_key_sorts_numerically :
    naturalSortFiles
        [⟨"", "a_page_9", ".pdf"⟩, ⟨"", "a_page_10", ".pdf"⟩, ⟨"", "a_page_2", ".pdf"⟩]
      = [⟨"", "a_page_2", ".pdf"⟩, ⟨"", "a_page_9", ".pdf"⟩, ⟨"", "a_page_10", ".pdf"⟩] ∧
    ∀ (stem : String) (m n : Nat), m < n →
      keyLt (natKey (stem ++ "_page_" ++ natDigitsStr m))
        (natKey (stem ++ "_page_" ++ natDigitsStr n)) = true :=
  ⟨by decide, keyLt_page_lt⟩

/-- Witness for C2's general clause at `page_9` versus `page_10`. -/
theorem natural_key_sorts_numerically_witness :
    keyLt (natKey ("a" ++ "_page_" ++ natDigitsStr 9))
      (natKey ("a" ++ "_page_" ++ natDigitsStr 10)) = true :=
  natural_key_sorts_numerically.2 "a" 9 10 (by decide)

/-! ### `combine_pdf.py` : the dedupe stage of `collect_pdfs`

`for pdf in pdf_files: if pdf not in seen: seen.add(pdf);
unique_pdfs.append(pdf.resolve())` — membership is tested on the RAW path
while the RESOLVED path is appended.  `resolve` models `Path.resolve()`
(filesystem canonicalization) and is passed explicitly. -/

def dedupeAux (resolve : String → String) (seen : List String) : List String → List String
  | [] => []
  | p :: ps =>
    if p ∈ seen then dedupeAux resolve seen ps
    else resolve p :: dedupeAux resolve (p :: seen) ps

def dedupe (resolve : String → String) (paths : List String) : List String :=
  dedupeAux resolve [] paths

/-- Spec-side first-occurrence filter: keep the first occurrence of each
distinct path, preserving order.  Used to characterize what `dedupe`
actually computes (on raw paths). -/
def firstOccurAux (seen : List String) : List String → List String
  | [] => []
  | p :: ps =>
    if p ∈ seen then firstOccurAux seen ps else p :: firstOccurAux (p :: seen) ps

def firstOccur (paths : List String) : List String := firstOccurAux [] paths

/-- A concrete model of `Path.resolve()` in a world whose working directory
is `/cwd` and which contains a subdirectory `sub`: the raw spellings
`a.pdf` and `sub/../a.pdf` are distinct `Path` values denoting the same
canonical file `/cwd/a.pdf`; canonically-written paths resolve to
themselves. -/
def resolveModel (s : String) : String :=
  if s = "a.pdf" then "/cwd/a.pdf"
  else if s = "sub/../a.pdf" then "/cwd/a.pdf"
  else s

theorem dedupeAux_eq_firstOccur (resolve : String → String) (l : List String) :
    ∀ seen, dedupeAux resolve seen l = (firstOccurAux seen l).map resolve := by
  induction l with
  | nil => intro seen; rfl
  | cons p ps ih =>
    intro seen
    by_cases hmem : p ∈ seen
    · simp only [dedupeAux, firstOccurAux, if_pos hmem, ih]
    · simp only [dedupeAux, firstOccurAux, if_neg hmem, ih, List.map_cons]

theorem firstOccurAux_subset (l : List String) :
    ∀ seen x, x ∈ firstOccurAux seen l → x ∈ l := by
  induction l with
  | nil => intro seen x hx; exact absurd hx (by simp [firstOccurAux])
  | cons p ps ih =>
    intro seen x hx
    by_cases hmem : p ∈ seen
    · rw [firstOccurAux, if_pos hmem] at hx
      exact List.mem_cons_of_mem p (ih seen x hx)
    · rw [firstOccurAux, if_neg hmem] at hx
      rcases List.mem_cons.mp hx with hx | hx
      · exact hx ▸ List.mem_cons_self p ps
      · exact List.mem_cons_of_mem p (ih (p :: seen) x hx)

theorem firstOccurAux_nodup_and_fresh (l : List String) :
    ∀ seen, (firstOccurAux seen l).Nodup ∧ ∀ x ∈ firstOccurAux seen l, x ∉ seen := by
  induction l with
  | nil => intro seen; simp [firstOccurAux]
  | cons p ps ih =>
    intro seen
    by_cases hmem : p ∈ seen
    · rw [firstOccurAux, if_pos hmem]
      exact ih seen
    · rw [firstOccurAux, if_neg hmem]
      obtain ⟨hnd, hfresh⟩ := ih (p :: seen)
      refine ⟨List.nodup_cons.mpr ⟨?_, hnd⟩, ?_⟩
      · intro hp
        exact (hfresh p hp) (List.mem_cons_self p seen)
      · intro x hx
        rcases List.mem_cons.mp hx with hx | hx
        · exact hx ▸ hmem
        · intro hxseen
          exact (hfresh x hx) (List.mem_cons_of_mem p hxseen)

theorem firstOccurAux_eq_self (l : List String) :
    ∀ seen, l.Nodup → (∀ x ∈ l, x ∉ seen) → firstOccurAux seen l = l := by
  induction l with
  | nil => intro seen _ _; rfl
  | cons p ps ih =>
    intro seen hnd hfresh
    rw [firstOccurAux, if_neg (hfresh p (List.mem_cons_self p ps))]
    congr 1
    refine ih (p :: seen) (List.nodup_cons.mp hnd).2 ?_
    intro x hx hxmem
    rcases List.mem_cons.mp hxmem with hx2 | hx2
    · exact (List.nodup_cons.mp hnd).1 (hx2 ▸ hx)
    · exact (hfresh x (List.mem_cons_of_mem p hx)) hx2

theorem firstOccur_idem (l : List String) : firstOccur (firstOccur l) = firstOccur l := by
  obtain ⟨hnd, _⟩ := firstOccurAux_nodup_and_fresh l ([] : List String)
  exact firstOccurAux_eq_self _ [] hnd (by simp)

/-- C5 counterexample: two distinct raw spellings of one canonical path
both survive deduplication (the canonical path appears twice in the
output), and a second application of `dedupe` removes the duplicate, so
`dedupe (dedupe x) ≠ dedupe x`: deduplication is neither canonical-path
based nor idempotent. -/
theorem dedupe_not_idempotent_cex :
    dedupe resolveModel ["a.pdf", "sub/../a.pdf"] = ["/cwd/a.pdf", "/cwd/a.pdf"] ∧
    dedupe resolveModel (dedupe resolveModel ["a.pdf", "sub/../a.pdf"]) = ["/cwd/a.pdf"] ∧
    dedupe resolveModel (dedupe resolveModel ["a.pdf", "sub/../a.pdf"])
      ≠ dedupe resolveModel ["a.pdf", "sub/../a.pdf"] := by decide

/-- C5 amended: deduplication keeps only the first occurrence of each
distinct RAW (unresolved) path, preserving the relative order of first
occurrences, and outputs the resolved form of each kept path; distinct raw
aliases of the same canonical path are all kept.  It is idempotent on
inputs whose paths are already canonical (fixed points of `resolve`). -/
theorem dedupe_raw_first_occurrence (resolve : String → String) (paths : List String)
    (hfix : ∀ p ∈ paths, resolve p = p) :
    dedupe resolve paths = (firstOccur paths).map resolve ∧
    dedupe resolve (dedupe resolve paths) = dedupe resolve paths := by
  have heq : ∀ l : List String, dedupe resolve l = (firstOccur l).map resolve :=
    fun l => dedupeAux_eq_firstOccur resolve l []
  refine ⟨heq paths, ?_⟩
  have hfo_fix : (firstOccur paths).map resolve = firstOccur paths := by
    apply List.map_congr_left ?_ |>.trans (List.map_id _)
    intro x hx
    exact hfix x (firstOccurAux_subset paths [] x hx)
  rw [heq paths, hfo_fix, heq (firstOccur paths), firstOccur_idem]
  exact hfo_fix

/-- Witness for C5's amended statement on canonical inputs with a repeat. -/
theorem dedupe_raw_first_occurrence_witness :
    (∀ p ∈ ["/cwd/a.pdf", "/cwd/b.pdf", "/cwd/a.pdf"], resolveModel p = p) ∧
      (dedupe resolveModel ["/cwd/a.pdf", "/cwd/b.pdf", "/cwd/a.pdf"]
          = (firstOccur ["/cwd/a.pdf", "/cwd/b.pdf", "/cwd/a.pdf"]).map resolveModel ∧
        dedupe resolveModel (dedupe resolveModel ["/cwd/a.pdf", "/cwd/b.pdf", "/cwd/a.pdf"])
          = dedupe resolveModel ["/cwd/a.pdf", "/cwd/b.pdf", "/cwd/a.pdf"]) :=
  ⟨by decide, dedupe_raw_first_occurrence resolveModel _ (by decide)⟩

/-! ### Merge error handling (C6, C7, C8) -/

/-- C7: merging an empty input list fails with `EmptyInputError`
(`ValueError` in the code) and performs no filesystem mutation, so no
output file is created. -/
theorem merge_empty_input {α : Type} (out : FPath) (outExists overwrite : Bool) :
    merge_pdfs ([] : List (FPath × PDFDoc α)) out outExists overwrite
      = ([], .error .emptyInput) := rfl

/-- C8: with a non-empty input list, if the output path exists and
overwrite is off, merging fails with `OutputExistsError` (`FileExistsError`
in the code) and performs no filesystem mutation, leaving the existing file
untouched. -/
theorem merge_output_exists_guard {α : Type} (inputs : List (FPath × PDFDoc α)) (out : FPath)
    (h : inputs ≠ []) :
    merge_pdfs inputs out true false = ([], .error .outputExists) := by
  unfold merge_pdfs
  rw [if_neg (by rw [isEmpty_false_of_ne_nil h]; decide), if_pos (by decide)]

/-- Witness for C8 at a concrete one-file merge. -/
theorem merge_output_exists_guard_witness :
    ([((⟨"", "a", ".pdf"⟩ : FPath), ([0] : PDFDoc Nat))] ≠ []) ∧
      merge_pdfs [((⟨"", "a", ".pdf"⟩ : FPath), ([0] : PDFDoc Nat))] ⟨"", "o", ".pdf"⟩ true false
        = ([], .error .outputExists) :=
  ⟨by decide, merge_output_exists_guard _ _ (by decide)⟩

/-- C6 counterexample: a successful merge saves the merged document
directly at the final output path — the trace is a single `save` at
`output_path`, not a save to a temporary path followed by a rename. -/
theorem merge_not_atomic_cex :
    merge_pdfs [((⟨"", "a", ".pdf"⟩ : FPath), ([0] : PDFDoc Nat))] ⟨"", "o", ".pdf"⟩ false false
      = ([FsOp.save ⟨"", "o", ".pdf"⟩ [0]], .ok [0]) ∧
    ¬ ∃ (tmp : FPath) (d : PDFDoc Nat), tmp ≠ (⟨"", "o", ".pdf"⟩ : FPath) ∧
        (merge_pdfs [((⟨"", "a", ".pdf"⟩ : FPath), ([0] : PDFDoc Nat))]
            ⟨"", "o", ".pdf"⟩ false false).1
          = [FsOp.save tmp d, FsOp.rename tmp ⟨"", "o", ".pdf"⟩] := by
  refine ⟨rfl, ?_⟩
  rintro ⟨tmp, d, hne, heq⟩
  have h1 : (merge_pdfs [((⟨"", "a", ".pdf"⟩ : FPath), ([0] : PDFDoc Nat))]
      ⟨"", "o", ".pdf"⟩ false false).1 = [FsOp.save ⟨"", "o", ".pdf"⟩ [0]] := rfl
  rw [h1] at heq
  have hlen := congrArg List.length heq
  simp at hlen

/-- C6 amended: whenever the precondition checks pass, the merged document
is written by a single `save` directly at the final output path; no
temporary path and no rename are involved (so a mid-write failure can leave
a partial file visible at the output path). -/
theorem merge_saves_directly {α : Type} (inputs : List (FPath × PDFDoc α)) (out : FPath)
    (outExists overwrite : Bool) (h1 : inputs ≠ [])
    (h2 : outExists = false ∨ overwrite = true) :
    merge_pdfs inputs out outExists overwrite
      = ([FsOp.save out (mergeAll inputs)], .ok (mergeAll inputs)) := by
  have hc : (outExists && !overwrite) = false := by
    rcases h2 with h2 | h2 <;> rw [h2] <;> simp
  unfold merge_pdfs
  rw [if_neg (by rw [isEmpty_false_of_ne_nil h1]; decide), if_neg (by rw [hc]; decide)]

/-- Witness for C6's amended statement at a concrete merge. -/
theorem merge_saves_directly_witness :
    ([((⟨"", "a", ".pdf"⟩ : FPath), ([0] : PDFDoc Nat))] ≠ []) ∧
      ((false : Bool) = false ∨ (false : Bool) = true) ∧
      merge_pdfs [((⟨"", "a", ".pdf"⟩ : FPath), ([0] : PDFDoc Nat))] ⟨"", "o", ".pdf"⟩ false false
        = ([FsOp.save ⟨"", "o", ".pdf"⟩
             (mergeAll [((⟨"", "a", ".pdf"⟩ : FPath), ([0] : PDFDoc Nat))])],
           .ok (mergeAll [((⟨"", "a", ".pdf"⟩ : FPath), ([0] : PDFDoc Nat))])) :=
  ⟨by decide, Or.inl rfl, merge_saves_directly _ _ _ _ (by decide) (Or.inl rfl)⟩

/-- C10: when any of `split_pdf`'s precondition checks fails (missing
source, wrong extension, zero pages), the call errors with an empty
mutation trace: the output directory is not created and no page file is
written. -/
theorem split_preconditions_no_mutation {α : Type} (src : FPath) (srcExists : Bool)
    (doc : PDFDoc α) (outDir : String)
    (h : srcExists = false ∨ strLower src.ext ≠ ".pdf" ∨ doc.length = 0) :
    (split_pdf src srcExists doc outDir).1 = [] ∧
      ∃ e, (split_pdf src srcExists doc outDir).2 = .error e := by
  cases srcExists with
  | false => exact ⟨rfl, .notFound, rfl⟩
  | true =>
    rcases h with h | h | h
    · exact absurd h (by decide)
    · unfold split_pdf
      rw [if_neg (by decide), if_pos h]
      exact ⟨rfl, .invalidFormat, rfl⟩
    · unfold split_pdf
      rw [if_neg (by decide)]
      by_cases h2 : strLower src.ext ≠ ".pdf"
      · rw [if_pos h2]
        exact ⟨rfl, .invalidFormat, rfl⟩
      · rw [if_neg h2, if_pos h]
        exact ⟨rfl, .emptyDocument, rfl⟩

/-- Witness for C10 at a missing source file. -/
theorem split_preconditions_no_mutation_witness :
    ((false : Bool) = false ∨ strLower (⟨"", "doc", ".pdf"⟩ : FPath).ext ≠ ".pdf" ∨
        ([3] : PDFDoc Nat).length = 0) ∧
      ((split_pdf (⟨"", "doc", ".pdf"⟩ : FPath) false ([3] : PDFDoc Nat) "out").1 = [] ∧
        ∃ e, (split_pdf (⟨"", "doc", ".pdf"⟩ : FPath) false ([3] : PDFDoc Nat) "out").2
          = .error e) :=
  ⟨Or.inl rfl, split_preconditions_no_mutation _ _ _ _ (Or.inl rfl)⟩

/-! ### `combine_ocr_json.py`

JSON values are modelled by `JVal`.  A parsed result file payload is an
arbitrary `JVal`; `none` models a file on which `json.load` raises.
Object field lists are assumed duplicate-free (what `json.load` yields).
Writing the combined file and the wall-clock timestamp are outside the
model; the aggregation result (`AggregateDocument`) is returned instead. -/

inductive JVal where
  | null
  | bool (b : Bool)
  | num (n : Int)
  | str (s : String)
  | arr (xs : List JVal)
  | obj (fields : List (String × JVal))

def lookupField : List (String × JVal) → String → Option JVal
  | [], _ => none
  | (k, v) :: rest, key => if k = key then some v else lookupField rest key

/-- Python's `str.split(sep)` for a one-character separator. -/
def splitOnChar (sep : Char) : List Char → List (List Char)
  | [] => [[]]
  | c :: cs =>
    match splitOnChar sep cs with
    | [] => [[c]]
    | t :: ts => if c = sep then [] :: t :: ts else (c :: t) :: ts

/-- The loop of `extract_page_number`: return `int(part)` for the first
underscore-delimited part with `part.isdigit()`, else 0. -/
def firstDigitField : List (List Char) → Nat
  | [] => 0
  | part :: parts => if pyIsDigit part then digitsToNat part else firstDigitField parts

/-- `extract_page_number(filename)`.  Filenames are modelled by their
basename (no directory separator), which is what both call sites compare
and store after `os.path.basename`. -/
def extract_page_number (basename : String) : Nat :=
  firstDigitField (splitOnChar '_' basename.data)

/-- Spec-side description, for comparison with the code: the integer value
of the first run of digits appearing anywhere in the filename, if any. -/
def firstDigitRun (s : String) : Option Nat :=
  match (splitDigitRuns s.data).find? pyIsDigit with
  | some run => some (digitsToNat run)
  | none => none

structure PageInfo where
  source_file : String
  page_number : Nat
  page_index : JVal
  input_path : JVal
  ocr_data : JVal

structure AggregateDocument where
  total_pages : Nat
  source_directory : String
  pages : List PageInfo

/-- The `page_info` record built for one successfully parsed file at
enumeration index `i`.  Returns `none` when the payload is not a JSON
object: then `page_data.get(...)` raises `AttributeError`, which the
per-file `except` swallows, skipping the file. -/
def mkPageInfo (i : Nat) (name : String) (payload : JVal) : Option PageInfo :=
  match payload with
  | .obj fs => some
      { source_file := name
        page_number := extract_page_number name
        page_index := (lookupField fs "page_index").getD (.num (Int.ofNat i))
        input_path := (lookupField fs "input_path").getD (.str "")
        ocr_data := payload }
  | _ => none

/-- The `for i, json_file in enumerate(json_files)` loop: parse failures
(`none`) and non-object payloads are skipped (`continue`), successes are
appended in order. -/
def combineLoop : Nat → List (String × Option JVal) → List PageInfo
  | _, [] => []
  | i, (name, parsed) :: rest =>
    match parsed with
    | some payload =>
      match mkPageInfo i name payload with
      | some pr => pr :: combineLoop (i + 1) rest
      | none => combineLoop (i + 1) rest
    | none => combineLoop (i + 1) rest

/-- `combine_ocr_json_files(input_dir, ...)`.  `files` holds the discovered
`*_res.json` files in discovery (glob) order together with each file's
parse outcome.  Returns `none` when no files were found (the code prints
and returns).  `total_pages` is `len(json_files)`, computed before the
per-file loop runs. -/
def combine_ocr_json_files (files : List (String × Option JVal)) (inputDir : String) :
    Option AggregateDocument :=
  if files.isEmpty then none
  else
    some { total_pages := files.length
           source_directory := inputDir
           pages := combineLoop 0 (pySorted
             (fun a b => decide (extract_page_number a.1 < extract_page_number b.1)) files) }

theorem combineLoop_length_le (l : List (String × Option JVal)) :
    ∀ i, (combineLoop i l).length ≤ l.length := by
  induction l with
  | nil => intro i; exact Nat.le_refl 0
  | cons pr rest ih =>
    intro i
    obtain ⟨name, parsed⟩ := pr
    cases parsed with
    | none =>
      calc (combineLoop i ((name, none) :: rest)).length
          = (combineLoop (i + 1) rest).length := rfl
        _ ≤ rest.length := ih (i + 1)
        _ ≤ rest.length + 1 := Nat.le_succ _
    | some payload =>
      cases hmk : mkPageInfo i name payload with
      | none =>
        have h1 : combineLoop i ((name, some payload) :: rest) = combineLoop (i + 1) rest := by
          simp [combineLoop, hmk]
        rw [h1]
        exact Nat.le_trans (ih (i + 1)) (Nat.le_succ _)
      | some pr =>
        have h1 : combineLoop i ((name, some payload) :: rest)
            = pr :: combineLoop (i + 1) rest := by
          simp [combineLoop, hmk]
        rw [h1, List.length_cons, List.length_cons]
        exact Nat.succ_le_succ (ih (i + 1))

theorem combineLoop_length_eq (l : List (String × Option JVal))
    (hobj : ∀ pr ∈ l, ∃ fs, pr.2 = some (JVal.obj fs)) :
    ∀ i, (combineLoop i l).length = l.length := by
  induction l with
  | nil => intro i; rfl
  | cons pr rest ih =>
    intro i
    obtain ⟨name, parsed⟩ := pr
    obtain ⟨fs, hfs⟩ := hobj (name, parsed) (List.mem_cons_self _ _)
    simp only at hfs
    subst hfs
    have h1 : combineLoop i ((name, some (JVal.obj fs)) :: rest)
        = ({ source_file := name
             page_number := extract_page_number name
             page_index := (lookupField fs "page_index").getD (.num (Int.ofNat i))
             input_path := (lookupField fs "input_path").getD (.str "")
             ocr_data := JVal.obj fs } : PageInfo) :: combineLoop (i + 1) rest := rfl
    rw [h1, List.length_cons, List.length_cons,
      ih (fun q hq => hobj q (List.mem_cons_of_mem _ hq)) (i + 1)]

theorem combineLoop_page_number (l : List (String × Option JVal)) :
    ∀ i pr, pr ∈ combineLoop i l → pr.page_number = extract_page_number pr.source_file := by
  induction l with
  | nil => intro i pr hpr; exact absurd hpr (by simp [combineLoop])
  | cons q rest ih =>
    intro i pr hpr
    obtain ⟨name, parsed⟩ := q
    cases parsed with
    | none => exact ih (i + 1) pr hpr
    | some payload =>
      cases payload with
      | obj fs =>
        have h1 : combineLoop i ((name, some (JVal.obj fs)) :: rest)
            = ({ source_file := name
                 page_number := extract_page_number name
                 page_index := (lookupField fs "page_index").getD (.num (Int.ofNat i))
                 input_path := (lookupField fs "input_path").getD (.str "")
                 ocr_data := JVal.obj fs } : PageInfo) :: combineLoop (i + 1) rest := rfl
        rw [h1] at hpr
        rcases List.mem_cons.mp hpr with hpr | hpr
        · subst hpr; rfl
        · exact ih (i + 1) pr hpr
      | null => exact ih (i + 1) pr hpr
      | bool b => exact ih (i + 1) pr hpr
      | num n => exact ih (i + 1) pr hpr
      | str s => exact ih (i + 1) pr hpr
      | arr xs => exact ih (i + 1) pr hpr

/-- C3 counterexample: aggregating one well-formed and one malformed
result file yields `total_pages = 2` (the number of discovered files) but
only one `PageRecord`, so `total_pages` differs from the length of the
page sequence and is not 1. -/
theorem aggregate_total_pages_cex :
    (combine_ocr_json_files
        [("page_1_res.json", some (.obj [])), ("page_2_res.json", none)] "output_all").map
      (fun doc => (doc.total_pages, doc.pages.length)) = some (2, 1) := rfl

/-- C3 amended: `total_pages` equals the number of DISCOVERED result
files, of which the page sequence is a (possibly shorter) selection; the
two agree exactly when every discovered file parses as a JSON object.  In
the one-good-one-malformed scenario there is exactly one `PageRecord` but
`total_pages = 2`. -/
theorem aggregate_total_pages_amended (files : List (String × Option JVal)) (dir : String)
    (doc : AggregateDocument) (h : combine_ocr_json_files files dir = some doc) :
    doc.total_pages = files.length ∧ doc.pages.length ≤ files.length ∧
      ((∀ pr ∈ files, ∃ fs, pr.2 = some (JVal.obj fs)) → doc.pages.length = files.length) := by
  by_cases hne : files.isEmpty
  · rw [combine_ocr_json_files, if_pos hne] at h
    exact absurd h (by simp)
  · rw [combine_ocr_json_files, if_neg hne] at h
    injection h with h
    subst h
    refine ⟨rfl, ?_, ?_⟩
    · exact Nat.le_trans (combineLoop_length_le _ 0) (Nat.le_of_eq (pySorted_length _ _))
    · intro hobj
      have hobj2 : ∀ pr ∈ pySorted
          (fun a b => decide (extract_page_number a.1 < extract_page_number b.1)) files,
          ∃ fs, pr.2 = some (JVal.obj fs) :=
        fun pr hpr => hobj pr ((pySorted_mem _ pr files).mp hpr)
      rw [combineLoop_length_eq _ hobj2 0, pySorted_length]

/-- Witness for C3's amended statement at a single well-formed file. -/
theorem aggregate_total_pages_amended_witness :
    (({ total_pages := 1
        source_directory := "d"
        pages := [{ source_file := "p_1_res.json"
                    page_number := 1
                    page_index := JVal.num 0
                    input_path := JVal.str ""
                    ocr_data := JVal.obj [] }] } : AggregateDocument).total_pages
        = [("p_1_res.json", some (JVal.obj []))].length) ∧
      (({ total_pages := 1
          source_directory := "d"
          pages := [{ source_file := "p_1_res.json"
                      page_number := 1
                      page_index := JVal.num 0
                      input_path := JVal.str ""
                      ocr_data := JVal.obj [] }] } : AggregateDocument).pages.length
          ≤ [("p_1_res.json", some (JVal.obj []))].length) ∧
      ((∀ pr ∈ [("p_1_res.json", some (JVal.obj []))], ∃ fs, pr.2 = some (JVal.obj fs)) →
        ({ total_pages := 1
           source_directory := "d"
           pages := [{ source_file := "p_1_res.json"
                       page_number := 1
                       page_index := JVal.num 0
                       input_path := JVal.str ""
                       ocr_data := JVal.obj [] }] } : AggregateDocument).pages.length
          = [("p_1_res.json", some (JVal.obj []))].length) :=
  aggregate_total_pages_amended [("p_1_res.json", some (JVal.obj []))] "d" _ rfl

/-- C4 counterexample: for `page9_res.json` the first run of digits is 9
yet the code extracts 0 (it only accepts whole underscore-delimited
all-digit fields); and for two digitless filenames both records get
`page_number = 0`, not their positions in discovery order. -/
theorem page_number_extraction_cex :
    extract_page_number "page9_res.json" = 0 ∧
    firstDigitRun "page9_res.json" = some 9 ∧
    (combine_ocr_json_files
        [("a_res.json", some (.obj [])), ("b_res.json", some (.obj []))] "d").map
      (fun doc => doc.pages.map (fun pr => pr.page_number)) = some [0, 0] :=
  ⟨rfl, rfl, rfl⟩

/-- C4 amended: the page number stored in each record (and used to order
the files) is the integer value of the first underscore-delimited field of
the basename that consists entirely of digits, and it defaults to 0 — not
to the file's position in discovery order — when no such field exists. -/
theorem page_number_extraction_amended (files : List (String × Option JVal)) (dir : String)
    (doc : AggregateDocument) (h : combine_ocr_json_files files dir = some doc) :
    (∀ pr ∈ doc.pages, pr.page_number = extract_page_number pr.source_file) ∧
    (∀ name : String, extract_page_number name =
        (match (splitOnChar '_' name.data).find? pyIsDigit with
          | some part => digitsToNat part
          | none => 0)) := by
  constructor
  · by_cases hne : files.isEmpty
    · rw [combine_ocr_json_files, if_pos hne] at h
      exact absurd h (by simp)
    · rw [combine_ocr_json_files, if_neg hne] at h
      injection h with h
      subst h
      exact fun pr hpr => combineLoop_page_number _ 0 pr hpr
  · intro name
    unfold extract_page_number
    generalize splitOnChar '_' name.data = parts
    induction parts with
    | nil => rfl
    | cons part rest ih =>
      by_cases hd : pyIsDigit part
      · rw [firstDigitField, if_pos hd, List.find?_cons_of_pos _ hd]
      · rw [firstDigitField, if_neg hd, List.find?_cons_of_neg _ (by simpa using hd), ih]

/-- Witness for C4's amended statement at a single well-formed file. -/
theorem page_number_extraction_amended_witness :
    (∀ pr ∈ ({ total_pages := 1
               source_directory := "d"
               pages := [{ source_file := "p_1_res.json"
                           page_number := 1
                           page_index := JVal.num 0
                           input_path := JVal.str ""
                           ocr_data := JVal.obj [] }] } : AggregateDocument).pages,
        pr.page_number = extract_page_number pr.source_file) ∧
      (∀ name : String, extract_page_number name =
          (match (splitOnChar '_' name.data).find? pyIsDigit with
            | some part => digitsToNat part
            | none => 0)) :=
  page_number_extraction_amended [("p_1_res.json", some (JVal.obj []))] "d" _ rfl

/-! ### `create_summary_report` : the three per-page counts

`len(page["ocr_data"].get(..., default))` chains.  Python's `dict.get`
raises `AttributeError` on a non-dict receiver and `len` raises
`TypeError` on a non-sized value; both are modelled as `Except.error`. -/

/-- Python `len` over a JSON value (`TypeError` on unsized values). -/
def pyLen : JVal → Except Unit Nat
  | .arr xs => .ok xs.length
  | .str s => .ok s.length
  | .obj fs => .ok fs.length
  | _ => .error ()

/-- Python `receiver.get(key, default)` (`AttributeError` if the receiver
is not a dict). -/
def pyGet (v : JVal) (key : String) (dflt : JVal) : Except Unit JVal :=
  match v with
  | .obj fs => .ok ((lookupField fs key).getD dflt)
  | _ => .error ()

/-- `parsing_count = len(page["ocr_data"].get("parsing_res_list", []))`. -/
def parsingCount (payload : JVal) : Except Unit Nat := do
  let v ← pyGet payload "parsing_res_list" (.arr [])
  pyLen v

/-- `layout_count = len(page["ocr_data"].get("layout_det_res", {}).get("boxes", []))`. -/
def layoutCount (payload : JVal) : Except Unit Nat := do
  let sub ← pyGet payload "layout_det_res" (.obj [])
  let v ← pyGet sub "boxes" (.arr [])
  pyLen v

/-- `ocr_count = len(page["ocr_data"].get("overall_ocr_res", {}).get("dt_polys", []))`. -/
def ocrCount (payload : JVal) : Except Unit Nat := do
  let sub ← pyGet payload "overall_ocr_res" (.obj [])
  let v ← pyGet sub "dt_polys" (.arr [])
  pyLen v

/-- C9: for every JSON-object payload, each of the three summary counts
equals the length of the corresponding substructure when it is present
(as a sequence, with `layout_det_res` / `overall_ocr_res` present as
objects), and defaults to zero — without error — when the substructure is
absent. -/
theorem summary_counts_default_zero (fs : List (String × JVal)) :
    (lookupField fs "parsing_res_list" = none → parsingCount (.obj fs) = .ok 0) ∧
    (∀ l, lookupField fs "parsing_res_list" = some (.arr l) →
      parsingCount (.obj fs) = .ok l.length) ∧
    (lookupField fs "layout_det_res" = none → layoutCount (.obj fs) = .ok 0) ∧
    (∀ gs, lookupField fs "layout_det_res" = some (.obj gs) →
      (lookupField gs "boxes" = none → layoutCount (.obj fs) = .ok 0) ∧
      (∀ l, lookupField gs "boxes" = some (.arr l) →
        layoutCount (.obj fs) = .ok l.length)) ∧
    (lookupField fs "overall_ocr_res" = none → ocrCount (.obj fs) = .ok 0) ∧
    (∀ gs, lookupField fs "overall_ocr_res" = some (.obj gs) →
      (lookupField gs "dt_polys" = none → ocrCount (.obj fs) = .ok 0) ∧
      (∀ l, lookupField gs "dt_polys" = some (.arr l) →
        ocrCount (.obj fs) = .ok l.length)) := by
  refine ⟨?_, ?_, ?_, ?_, ?_, ?_⟩
  · intro h
    simp [parsingCount, pyGet, pyLen, h, Bind.bind, Except.bind]
  · intro l h
    simp [parsingCount, pyGet, pyLen, h, Bind.bind, Except.bind]
  · intro h
    simp [layoutCount, pyGet, pyLen, lookupField, h, Bind.bind, Except.bind]
  · intro gs h
    constructor
    · intro h2
      simp [layoutCount, pyGet, pyLen, h, h2, Bind.bind, Except.bind]
    · intro l h2
      simp [layoutCount, pyGet, pyLen, h, h2, Bind.bind, Except.bind]
  · intro h
    simp [ocrCount, pyGet, pyLen, lookupField, h, Bind.bind, Except.bind]
  · intro gs h
    constructor
    · intro h2
      simp [ocrCount, pyGet, pyLen, h, h2, Bind.bind, Except.bind]
    · intro l h2
      simp [ocrCount, pyGet, pyLen, h, h2, Bind.bind, Except.bind]

/-- Witness for C9: a payload with a two-element `parsing_res_list` and
with the other two substructures absent. -/
theorem summary_counts_default_zero_witness :
    parsingCount (.obj [("parsing_res_list", JVal.arr [JVal.null, JVal.null])]) = .ok 2 ∧
    layoutCount (.obj [("parsing_res_list", JVal.arr [JVal.null, JVal.null])]) = .ok 0 ∧
    ocrCount (.obj [("parsing_res_list", JVal.arr [JVal.null, JVal.null])]) = .ok 0 := by
  have h := summary_counts_default_zero [("parsing_res_list", JVal.arr [JVal.null, JVal.null])]
  exact ⟨h.2.1 [JVal.null, JVal.null] rfl, h.2.2.1 rfl, h.2.2.2.2.1 rfl⟩
